import Mathlib

/-!
Verification of the tree-model adapter in
`src/qiskit_metal/_gui/tree_model_base.py` (class `QTreeModel_Base`).

Shallow embedding conventions used throughout this development:

* A Python nested dictionary (string keys to scalar-or-dict values) is the
  inductive type `DVal` / `Entries`.  Scalar values are modelled as `Int`
  (`Val`).  Python dict iteration order is the list order (insertion order);
  Python dict assignment keeps an existing key at its position and appends a
  fresh key at the end (`dictSet`).
* The source appends the heterogeneous list `curpath + [k, v]` (keys followed
  by the final scalar) to `self.paths`.  A path is therefore represented as a
  pair `(List Key × Val)`: the key part (`path[:-1]` in the source) and the
  final scalar (`path[-1]`).  With this split, `path[:-2]` is `keys.dropLast`
  and `path[-2]` is the last key.
* The classes `BranchNode` and `LeafNode` are imported by the source from
  `widgets/edit_component/tree_model_options.py`, a file that is not part of
  this repository snapshot; they are modelled from the spec (section 3) where
  marked `Modelled from the spec:` below.  In particular a `LeafNode` stores
  `label`, `value` (the scalar captured when the node was built), and `path`,
  and a `BranchNode` stores `name`, a `_data` reference and the ordered
  `children` list of `(childname, childnode)` pairs (the pair layout is fixed
  by the `KEY, NODE = range(2)` comment in the source itself).
* Python object mutation is modelled by functional update: the tree is the
  inductive `Node`, and an update of a nested node rebuilds the spine above
  it.  A node reference (`QModelIndex.internalPointer()`) is modelled as the
  node's position in the current tree: a list of row numbers from the root
  (`Pos`).  The `parent` back-reference written by `insertChild` is then
  `Pos.dropLast`, and the root's `parent` is `None`.  Python `==` on node
  objects (identity, no `__eq__` is defined) is modelled by structural
  equality `nodeEq`; the two coincide on trees whose sibling names are
  distinct, which `load` guarantees for well-formed dictionaries.
* Python statements that raise (`assert`, `AttributeError` from a missing
  method, `KeyError`/`TypeError` from an impossible dictionary walk) are
  modelled by an `Option` result, `none` meaning the exception.
* In PyQt5, `createIndex(0, 0)` (third argument defaulted) produces an index
  whose `internalPointer()` is `None`; this is modelled by a `none` pointer.
-/

abbrev Key := String
abbrev Val := Int

/-- A value of the source dictionary: a scalar or a nested dictionary. -/
inductive DVal where
  | scalar (v : Val)
  | dict (entries : List (Key × DVal))

abbrev Entries := List (Key × DVal)

mutual

/-- Structural (Boolean) equality on dictionary values. -/
def dvalEq : DVal → DVal → Bool
  | DVal.scalar v, DVal.scalar w => v == w
  | DVal.dict d, DVal.dict e => entriesEq d e
  | DVal.scalar _, DVal.dict _ => false
  | DVal.dict _, DVal.scalar _ => false

/-- Structural (Boolean) equality on dictionaries. -/
def entriesEq : Entries → Entries → Bool
  | [], [] => true
  | (k, v) :: r, (k2, v2) :: r2 => k == k2 && dvalEq v v2 && entriesEq r r2
  | [], _ :: _ => false
  | _ :: _, [] => false

end

/-- First-match key membership of a dictionary (Python `k in d`). -/
def hasKey : Entries → Key → Bool
  | [], _ => false
  | (k2, _) :: es, k => k2 == k || hasKey es k

/-- First-match lookup in a dictionary (Python `d[k]`, `none` = `KeyError`). -/
def lookupE : Entries → Key → Option DVal
  | [], _ => none
  | (k2, v) :: es, k => if k2 = k then some v else lookupE es k

/-- Python `d[k] = v`: an existing key keeps its position and gets the new
value, a fresh key is appended at the end (insertion order). -/
def dictSet : Entries → Key → DVal → Entries
  | [], k, v => [(k, v)]
  | (k2, v2) :: es, k, v => if k2 = k then (k2, v) :: es else (k2, v2) :: dictSet es k v

/-- Value at a key path obtained by successive mapping lookups from the
dictionary root (the re-derivation used by the round-trip claims). -/
def getNestedE : Entries → List Key → Option DVal
  | _, [] => none
  | es, [k] => lookupE es k
  | es, k :: k2 :: ks => match lookupE es k with
    | some (DVal.dict d) => getNestedE d (k2 :: ks)
    | _ => none

/-- The dictionary walk of `QTreeModel_Base.setData`: `dic = dic[x]` for every
`x` in `path[:-1]`, then `dic[path[-1]] = value`.  `none` models the
`KeyError`/`TypeError` a broken walk would raise. -/
def assignPath : Entries → List Key → Val → Option Entries
  | _, [], _ => none
  | es, [k], v => some (dictSet es k (DVal.scalar v))
  | es, k :: k2 :: ks, v => match lookupE es k with
    | some (DVal.dict d) =>
        match assignPath d (k2 :: ks) v with
        | some d2 => some (dictSet es k (DVal.dict d2))
        | none => none
    | _ => none

mutual

/-- Well-formedness of a Python dictionary value: at every level the keys are
distinct (as they necessarily are for a real `dict`). -/
def wfV : DVal → Bool
  | DVal.scalar _ => true
  | DVal.dict es => wfE es

/-- Well-formedness of a dictionary: distinct keys, recursively. -/
def wfE : Entries → Bool
  | [] => true
  | (k, v) :: es => !(hasKey es k) && wfV v && wfE es

end

/-- Modelled from the spec: the node classes `BranchNode` and `LeafNode` of
`widgets/edit_component/tree_model_options.py` are not part of this
repository snapshot.  Per spec section 3, a `BranchNode` carries a `name`, a
`_data` reference (`dat`) and the ordered `children` list of
`(childname, childnode)` pairs; a `LeafNode` carries a `label` (`lab`), the
scalar `value` captured when the node was built, and the key `path` (`pth`)
from the dictionary root used to write back edits.  The `parent`
back-reference is positional (see the module comment). -/
inductive Node where
  | branch (name : Key) (dat : Option Entries) (children : List (Key × Node))
  | leaf (lab : Key) (value : Val) (pth : List Key)

/-- The children of a node (a leaf has none). -/
def Node.children : Node → List (Key × Node)
  | Node.branch _ _ cs => cs
  | Node.leaf _ _ _ => []

/-- The identifier a node contributes when inserted into a children list
(`BranchNode.name` or `LeafNode.label`; spec: "name (key in parent)" /
"label (the key)"). -/
def nodeKeyName : Node → Key
  | Node.branch nm _ _ => nm
  | Node.leaf lb _ _ => lb

mutual

/-- Structural (Boolean) equality on nodes, standing in for Python `==`
(object identity) in `rowOfChild`; the two agree on trees whose sibling
names are distinct. -/
def nodeEq : Node → Node → Bool
  | Node.branch nm d cs, Node.branch nm2 d2 cs2 =>
      nm == nm2 && datEq d d2 && childrenEq cs cs2
  | Node.leaf lb v p, Node.leaf lb2 v2 p2 => lb == lb2 && v == v2 && p == p2
  | Node.branch _ _ _, Node.leaf _ _ _ => false
  | Node.leaf _ _ _, Node.branch _ _ _ => false

/-- Structural equality on `_data` references. -/
def datEq : Option Entries → Option Entries → Bool
  | none, none => true
  | some d, some e => entriesEq d e
  | none, some _ => false
  | some _, none => false

/-- Structural equality on children lists. -/
def childrenEq : List (Key × Node) → List (Key × Node) → Bool
  | [], [] => true
  | (k, n) :: r, (k2, n2) :: r2 => k == k2 && nodeEq n n2 && childrenEq r r2
  | [], _ :: _ => false
  | _ :: _, [] => false

end

/-- Modelled from the spec: `BranchNode.childWithKey` (file not in the
snapshot) returns the first child whose stored key equals `key`, else
`None` — spec section 4: "find or create a BranchNode child with that key". -/
def childWithKey : List (Key × Node) → Key → Option Node
  | [], _ => none
  | (k2, n) :: cs, k => if k = k2 then some n else childWithKey cs k

/-- Modelled from the spec: `BranchNode.childAtRow` returns the child node at
the given row, or `None` when the row is out of range (spec section 7:
out-of-range queries yield an empty result).  The result is the child's
position index. -/
def childAtRowIdx (cs : List (Key × Node)) (row : Int) : Option Nat :=
  if 0 ≤ row ∧ row < (cs.length : Int) then some row.toNat else none

/-- Modelled from the spec: `BranchNode.rowOfChild` returns the row of the
first child equal (`==`, object identity in Python) to the argument, else
`-1`. -/
def rowOfChild : List (Key × Node) → Node → Int
  | [], _ => -1
  | (_, c2) :: cs, c =>
      if nodeEq c2 c then 0
      else if rowOfChild cs c = -1 then -1 else rowOfChild cs c + 1

/-- Python truthiness of the `branch` variable in `QTreeModel_Base.load`:
`None` is falsy, a `BranchNode` is falsy iff `__len__` (its number of
children) is `0`, and a `LeafNode` (no `__len__`) is always truthy. -/
def isFalsy : Option Node → Bool
  | none => true
  | some (Node.branch _ _ cs) => cs.isEmpty
  | some (Node.leaf _ _ _) => false

/-- Functional update of a children list at the first entry with the given
key (the in-place mutation of the branch found by `childWithKey`). -/
def replaceFirstKey : List (Key × Node) → Key → Node → List (Key × Node)
  | [], _, _ => []
  | (k2, n2) :: cs, k, n => if k = k2 then (k2, n) :: cs else (k2, n2) :: replaceFirstKey cs k n

/-- A position in the current tree: the list of row numbers from the root.
Models a Python node reference (see the module comment). -/
abbrev Pos := List Nat

/-- The node of the current tree at a position. -/
def nodeAt : Node → Pos → Option Node
  | n, [] => some n
  | Node.branch _ _ cs, i :: p => match cs[i]? with
    | some (_, c) => nodeAt c p
    | none => none
  | Node.leaf _ _ _, _ :: _ => none

/-- `QTreeModel_Base.getPaths`: recursively collects every root-to-leaf path
of the source dictionary, in insertion order, depth first.  The heterogeneous
Python path `curpath + [k, v]` is the pair `(curpath ++ [k], v)`. -/
def getPaths : Entries → List Key → List (List Key × Val)
  | [], _ => []
  | (k, DVal.scalar v) :: rest, cur => (cur ++ [k], v) :: getPaths rest cur
  | (k, DVal.dict d) :: rest, cur => getPaths d (cur ++ [k]) ++ getPaths rest cur

/-- One iteration of the per-path loop of `QTreeModel_Base.load`, walking the
key list from the current node.  The list argument is the key part of the
path still to process: for every key but the last (`path[:-2]`) the loop
finds or creates a branch (`childWithKey` / `BranchNode(key, data=dd)` /
`insertChild`) and descends; the last key (`path[-2]`) becomes the label of
the inserted `LeafNode` with path `fp` (`path[:-1]`).  `isFalsy` is the
Python truthiness test `if not branch`; when it holds for a found-but-empty
branch, the source creates and appends a duplicate fresh branch, which the
model reproduces.  `none` models the `AttributeError` raised if a leaf were
reached as the walk target (it has no `childWithKey`/`insertChild`); this
cannot happen for a dictionary source.  A key list of length `< 1` would be
`path[-2]` on a too-short path (`IndexError`), also unreachable. -/
def walkIns (dd : Entries) (fp : List Key) (v : Val) : List Key → Node → Option Node
  | [], _ => none
  | [lbl], Node.branch nm d cs =>
      some (Node.branch nm d (cs ++ [(lbl, Node.leaf lbl v fp)]))
  | [_], Node.leaf _ _ _ => none
  | k :: k2 :: ks, Node.branch nm d cs =>
      if isFalsy (childWithKey cs k) then
        match walkIns dd fp v (k2 :: ks) (Node.branch k (some dd) []) with
        | some nb => some (Node.branch nm d (cs ++ [(k, nb)]))
        | none => none
      else
        match childWithKey cs k with
        | some b =>
            match walkIns dd fp v (k2 :: ks) b with
            | some b2 => some (Node.branch nm d (replaceFirstKey cs k b2))
            | none => none
        | none => none
  | _ :: _ :: _, Node.leaf _ _ _ => none

/-- The `for path in self.paths` loop of `QTreeModel_Base.load`, generalized
to carry the walk-key list and the stored leaf path separately (they are
equal at the top-level call; the generalization is what lets the insertion
of a nested group of paths be related to the insertion of the group one
level down). -/
def buildW (dd : Entries) : List (List Key × List Key × Val) → Node → Option Node
  | [], n => some n
  | (ks, fp, v) :: rest, n => match walkIns dd fp v ks n with
    | some n2 => buildW dd rest n2
    | none => none

/-- The paths of a dictionary together with their walk-key lists relative to
that dictionary: entry `(ks, fp, v)` has full stored path `fp = cur ++ ks`.
At `cur = []` this is exactly `getPaths` tagged with itself. -/
def walkList : Entries → List Key → List (List Key × List Key × Val)
  | [], _ => []
  | (k, DVal.scalar v) :: rest, cur => ([k], cur ++ [k], v) :: walkList rest cur
  | (k, DVal.dict d) :: rest, cur =>
      (walkList d (cur ++ [k])).map (fun t => (k :: t.1, t.2.1, t.2.2)) ++ walkList rest cur

/-- Whether a dictionary contains at least one scalar at some depth, i.e.
whether it contributes any root-to-leaf path. -/
def hasScalarE : Entries → Bool
  | [] => false
  | (_, DVal.scalar _) :: _ => true
  | (_, DVal.dict d) :: rest => hasScalarE d || hasScalarE rest

/-- The expected children list for a dictionary, written from the spec's
contract for `load` (amended as claim C3's correction requires): every
scalar entry becomes exactly one leaf (label = key, value = the scalar,
path = the key path), every dictionary entry containing at least one scalar
somewhere beneath it becomes exactly one branch (name = key, `_data` = the
top-level dictionary), and dictionary entries with no scalar beneath them
produce no node. -/
def mirrorE (dd : Entries) : Entries → List Key → List (Key × Node)
  | [], _ => []
  | (k, DVal.scalar v) :: rest, cur => (k, Node.leaf k v (cur ++ [k])) :: mirrorE dd rest cur
  | (k, DVal.dict d) :: rest, cur =>
      if hasScalarE d then
        (k, Node.branch k (some dd) (mirrorE dd d (cur ++ [k]))) :: mirrorE dd rest cur
      else mirrorE dd rest cur

mutual

/-- Flattening a tree back to its (path, value) leaf pairs, depth first in
children order (the reading direction of claim C1). -/
def flattenPairs : Node → List (List Key × Val)
  | Node.leaf _ v ks => [(ks, v)]
  | Node.branch _ _ cs => flattenChildren cs

/-- Flattening of a children list. -/
def flattenChildren : List (Key × Node) → List (List Key × Val)
  | [] => []
  | (_, c) :: cs => flattenPairs c ++ flattenChildren cs

end

/-- Whether a stored child key occurs in a children list. -/
def hasChildKey : List (Key × Node) → Key → Bool
  | [], _ => false
  | (k2, _) :: cs, k => k2 == k || hasChildKey cs k

mutual

/-- Internal consistency of a node as built by `load`: every child pair's
stored key is the child's own name/label, sibling keys are distinct, and
the same holds recursively. -/
def goodNode : Node → Bool
  | Node.leaf _ _ _ => true
  | Node.branch _ _ cs => goodChildren cs

/-- Consistency of a children list (see `goodNode`). -/
def goodChildren : List (Key × Node) → Bool
  | [] => true
  | (k, c) :: cs =>
      nodeKeyName c == k && !(hasChildKey cs k) && goodNode c && goodChildren cs

end

/-- A Qt model index: either the invalid index (`QModelIndex()`) or an index
created by `createIndex(row, column, ptr)`.  The internal pointer is a node
position (`none` models a null pointer, e.g. `createIndex(0, 0)` with the
argument defaulted, or `createIndex(row, col, None)` after an out-of-range
`childAtRow`). -/
inductive QModelIndex where
  | invalid
  | idx (row : Int) (col : Int) (ptr : Option Pos)

/-- Qt `QModelIndex.isValid()`: a default-constructed index is invalid; an
index made by `createIndex` is valid iff its row and column are
non-negative (the model pointer is always set by `createIndex`). -/
def QModelIndex.isValid : QModelIndex → Bool
  | QModelIndex.invalid => false
  | QModelIndex.idx r c _ => decide (0 ≤ r) && decide (0 ≤ c)

/-- Qt `QModelIndex.column()`: `-1` for the invalid index. -/
def QModelIndex.columnOf : QModelIndex → Int
  | QModelIndex.invalid => -1
  | QModelIndex.idx _ c _ => c

/-- Qt `QModelIndex.internalPointer()` as a position. -/
def QModelIndex.ptrOf : QModelIndex → Option Pos
  | QModelIndex.invalid => none
  | QModelIndex.idx _ _ p => p

/-- The Qt item-data roles exercised by the source
(`Display = 0`, `Edit = 2`, `Font = 6`, `TextAlignment = 7`; `other` stands
for every remaining role). -/
inductive Role where
  | display
  | edit
  | font
  | textAlignment
  | other
deriving DecidableEq

/-- The values the source returns from `data`/`headerData`: `QVariant()`
(empty), a string, the bold `QFont`, or
`QVariant(int(Qt.AlignTop | Qt.AlignLeft))` (the integer 33). -/
inductive QVar where
  | empty
  | str (s : String)
  | boldFont
  | alignTopLeft
deriving DecidableEq

/-- Header orientation. -/
inductive Orient where
  | horizontal
  | vertical
deriving DecidableEq

/-- Signals the adapter emits (`modelReset.emit()`, and the
`view.autoresize_columns()` callback). -/
inductive Sig where
  | modelReset
  | autoresize
deriving DecidableEq

/-- The mutable state of a `QTreeModel_Base` instance: the externally shared
source dictionary (`self.design.renderers.gds.options`, reached through the
`data_dict` property), the tree root, the cached path list, the
`_rowCount` cache of `auto_refresh`, and whether a view is attached. -/
structure ModelState where
  dataDict : Entries
  root : Node
  paths : List (List Key × Val)
  rowCountCache : Int
  viewPresent : Bool

/-- The headers (`self.headers = ['Name', 'Value']`; never mutated). -/
def headers : List String := [("Name"), ("Value")]

/-- The state set up by `__init__` before its trailing `self.load()` call:
`root = BranchNode('')`, `paths = []`, `_rowCount = -1`. -/
def initState (d : Entries) : ModelState :=
  { dataDict := d
    root := Node.branch ("") none []
    paths := []
    rowCountCache := -1
    viewPresent := true }

namespace QTreeModel_Base

/-- `QTreeModel_Base.nodeFromIndex`, position half: a valid index dereferences
its internal pointer (`none` = null pointer = Python `None`); an invalid
index yields the root (position `[]`). -/
def nodePos (i : QModelIndex) : Option Pos :=
  if i.isValid then i.ptrOf else some []

/-- `QTreeModel_Base.nodeFromIndex`: the node referenced by an index, `none`
for a null internal pointer. -/
def nodeFromIndex (m : ModelState) (i : QModelIndex) : Option Node :=
  match nodePos i with
  | none => none
  | some p => nodeAt m.root p

/-- `QTreeModel_Base.load`: set `root._data`, clear `paths` and the root's
children, recompute `getPaths`, then insert every path (see `walkIns`).
`beginResetModel`/`endResetModel` notifications carry no state and are not
modelled.  `none` models the exceptions described at `walkIns` (and the
`AttributeError` of `children.clear()` were the root a leaf, which it never
is). -/
def load (m : ModelState) : Option ModelState :=
  match m.root with
  | Node.leaf _ _ _ => none
  | Node.branch nm _ _ =>
      let ps := getPaths m.dataDict []
      match buildW m.dataDict (ps.map (fun q => (q.1, q.1, q.2)))
          (Node.branch nm (some m.dataDict) []) with
      | some r => some { m with root := r, paths := ps }
      | none => none

/-- `QTreeModel_Base.rowCount`: `0` for a missing node or a leaf, else the
number of children (`len(node)`). -/
def rowCount (m : ModelState) (parent : QModelIndex) : Int :=
  match nodeFromIndex m parent with
  | none => 0
  | some (Node.leaf _ _ _) => 0
  | some (Node.branch _ _ cs) => (cs.length : Int)

/-- `QTreeModel_Base.columnCount`: `len(self.headers)`. -/
def columnCount (_ : ModelState) (_ : QModelIndex) : Int :=
  (headers.length : Int)

/-- `QTreeModel_Base.data`: invalid index gives `QVariant()`; the edit role
re-enters with the display role; the font role bolds column 0; the
text-alignment role returns top-left; the display role shows a branch's
name in column 0 and the empty string elsewhere, and a leaf's `str(label)` /
`str(value)` in columns 0 / 1 (`QVariant()` beyond). -/
def data (m : ModelState) (i : QModelIndex) (role : Role) : QVar :=
  if !i.isValid then QVar.empty
  else
    let displayed :=
      match nodeFromIndex m i with
      | some (Node.branch nm _ _) =>
          if i.columnOf = 0 then QVar.str nm else QVar.str ("")
      | some (Node.leaf lb v _) =>
          if i.columnOf = 0 then QVar.str lb
          else if i.columnOf = 1 then QVar.str (toString v)
          else QVar.empty
      | none => QVar.empty
    match role with
    | Role.edit => displayed
    | Role.display => displayed
    | Role.font => if i.columnOf = 0 then QVar.boldFont else QVar.empty
    | Role.textAlignment => QVar.alignTopLeft
    | Role.other => QVar.empty

/-- `QTreeModel_Base.setData`: edits through a leaf's column-1 cell.  Writing
the leaf's cached value returns `False` with no change; otherwise the
source dictionary is updated along `node.path` (`assignPath`), or directly
by label for an empty path (dead code after `load`, since every leaf path
is non-empty).  All other inputs fall through to `return False`.  `none`
models an exception from the dictionary walk. -/
def setData (m : ModelState) (i : QModelIndex) (v : Val) (role : Role) :
    Option (Bool × ModelState) :=
  if !i.isValid then some (false, m)
  else if role = Role.edit then
    if i.columnOf = 1 then
      match nodeFromIndex m i with
      | some (Node.leaf lb v0 ks) =>
          if v0 = v then some (false, m)
          else if ks.isEmpty then
            some (true, { m with dataDict := dictSet m.dataDict lb (DVal.scalar v) })
          else
            match assignPath m.dataDict ks v with
            | some d2 => some (true, { m with dataDict := d2 })
            | none => none
      | _ => some (false, m)
    else some (false, m)
  else some (false, m)

/-- `QTreeModel_Base.headerData`: horizontal display gives the in-range
header text, horizontal font gives the bold font, everything else
`QVariant()`. -/
def headerData (sec : Int) (orient : Orient) (role : Role) : QVar :=
  if orient = Orient.horizontal then
    if role = Role.display then
      if 0 ≤ sec ∧ sec < (headers.length : Int) then QVar.str (headers.getD sec.toNat (""))
      else QVar.empty
    else if role = Role.font then QVar.boldFont
    else QVar.empty
  else QVar.empty

/-- `QTreeModel_Base.index`: `assert self.root` fails when the root branch
has no children (`BranchNode.__len__` makes it falsy), and
`assert branch is not None` fails when the parent index carries a null
internal pointer; both failures are `none`.  Otherwise the result is
`createIndex(row, column, branch.childAtRow(row))`.  A leaf parent would
raise `AttributeError` (`childAtRow` undefined on `LeafNode`), also `none`;
an unresolvable position cannot arise in the source and is also mapped to
`none`. -/
def index (m : ModelState) (row col : Int) (parent : QModelIndex) :
    Option QModelIndex :=
  if m.root.children.isEmpty then none
  else
    match nodePos parent with
    | none => none
    | some pp =>
        match nodeAt m.root pp with
        | none => none
        | some (Node.leaf _ _ _) => none
        | some (Node.branch _ _ cs) =>
            some (QModelIndex.idx row col ((childAtRowIdx cs row).map (fun r => pp ++ [r])))

/-- `QTreeModel_Base.parent`: a missing node, a node with no parent (the
root) or a node whose parent is the root (no grandparent) gives the
invalid index; otherwise the result is
`createIndex(grandparent.rowOfChild(parent), 0, parent)`.  `none` models
the `assert row != -1` failure. -/
def parent (m : ModelState) (child : QModelIndex) : Option QModelIndex :=
  match nodePos child with
  | none => some QModelIndex.invalid
  | some p =>
      match nodeAt m.root p with
      | none => some QModelIndex.invalid
      | some _ =>
          if p.isEmpty then some QModelIndex.invalid
          else
            let pp := p.dropLast
            if pp.isEmpty then some QModelIndex.invalid
            else
              match nodeAt m.root pp, nodeAt m.root pp.dropLast with
              | some pnode, some gnode =>
                  if rowOfChild gnode.children pnode = -1 then none
                  else some (QModelIndex.idx (rowOfChild gnode.children pnode) 0 (some pp))
              | _, _ => some QModelIndex.invalid

/-- `QTreeModel_Base.flags`: always selectable and enabled
(`1 | 32 = 33`); a leaf's column-1 cell is additionally editable
(`| 2 = 35`). -/
def flags (m : ModelState) (i : QModelIndex) : Int :=
  if i.columnOf = 1 then
    match nodeFromIndex m i with
    | some (Node.leaf _ _ _) => 35
    | _ => 33
  else 33

/-- `QTreeModel_Base.auto_refresh` (the timer callback): probe
`rowCount(self.createIndex(0, 0))` — whose null internal pointer makes the
probe always `0` — and, when it differs from the `_rowCount` cache, emit
`modelReset`, update the cache, and ask the view to autoresize.  Note that
it never calls `load`, so the tree itself is untouched. -/
def auto_refresh (m : ModelState) : ModelState × List Sig :=
  let newRowCount := rowCount m (QModelIndex.idx 0 0 none)
  if m.rowCountCache ≠ newRowCount then
    ({ m with rowCountCache := newRowCount },
      Sig.modelReset :: (if m.viewPresent then [Sig.autoresize] else []))
  else (m, [])

/-- `QTreeModel_Base.refresh`: an unconditional `load` followed by
`modelReset`. -/
def refresh (m : ModelState) : Option (ModelState × List Sig) :=
  match load m with
  | some m2 => some (m2, [Sig.modelReset])
  | none => none

end QTreeModel_Base

/-! ### Basic lemmas about the Boolean equalities and children lists -/

mutual

theorem dvalEq_refl : (v : DVal) → dvalEq v v = true
  | DVal.scalar v => by simp [dvalEq]
  | DVal.dict d => by simp [dvalEq, entriesEq_refl d]

theorem entriesEq_refl : (es : Entries) → entriesEq es es = true
  | [] => by simp [entriesEq]
  | (k, v) :: es => by simp [entriesEq, dvalEq_refl v, entriesEq_refl es]

end

theorem datEq_refl (d : Option Entries) : datEq d d = true := by
  cases d with
  | none => simp [datEq]
  | some e => simp [datEq, entriesEq_refl e]

mutual

theorem nodeEq_refl : (n : Node) → nodeEq n n = true
  | Node.branch nm d cs => by simp [nodeEq, datEq_refl d, childrenEq_refl cs]
  | Node.leaf lb v p => by simp [nodeEq]

theorem childrenEq_refl : (cs : List (Key × Node)) → childrenEq cs cs = true
  | [] => by simp [childrenEq]
  | (k, n) :: cs => by simp [childrenEq, nodeEq_refl n, childrenEq_refl cs]

end

theorem nodeEq_keyName {a b : Node} (h : nodeEq a b = true) :
    nodeKeyName a = nodeKeyName b := by
  cases a <;> cases b <;> simp [nodeEq] at h <;> simp [nodeKeyName, h.1]

theorem childWithKey_eq_none {cs : List (Key × Node)} {k : Key}
    (h : hasChildKey cs k = false) : childWithKey cs k = none := by
  induction cs with
  | nil => simp [childWithKey]
  | cons p cs ih =>
      obtain ⟨k2, n⟩ := p
      simp [hasChildKey] at h
      have hne : ¬ k = k2 := fun hk => h.1 (Eq.symm hk)
      simp [childWithKey, hne, ih h.2]

theorem childWithKey_append_self {cs : List (Key × Node)} {k : Key} {b : Node}
    (h : hasChildKey cs k = false) : childWithKey (cs ++ [(k, b)]) k = some b := by
  induction cs with
  | nil => simp [childWithKey]
  | cons p cs ih =>
      obtain ⟨k2, n⟩ := p
      simp [hasChildKey] at h
      have hne : ¬ k = k2 := fun hk => h.1 (Eq.symm hk)
      simp [childWithKey, hne, ih h.2]

theorem replaceFirstKey_append_self {cs : List (Key × Node)} {k : Key} {b b2 : Node}
    (h : hasChildKey cs k = false) :
    replaceFirstKey (cs ++ [(k, b)]) k b2 = cs ++ [(k, b2)] := by
  induction cs with
  | nil => simp [replaceFirstKey]
  | cons p cs ih =>
      obtain ⟨k2, n⟩ := p
      simp [hasChildKey] at h
      have hne : ¬ k = k2 := fun hk => h.1 (Eq.symm hk)
      simp [replaceFirstKey, hne, ih h.2]

theorem hasChildKey_append (cs ds : List (Key × Node)) (k : Key) :
    hasChildKey (cs ++ ds) k = (hasChildKey cs k || hasChildKey ds k) := by
  induction cs with
  | nil => simp [hasChildKey]
  | cons p cs ih =>
      obtain ⟨k2, n⟩ := p
      by_cases hk : k2 = k <;> simp [hasChildKey, hk, ih, Bool.or_assoc]

/-! ### Structure of `walkIns` and the group-lifting lemma -/

theorem walkIns_shape (dd : Entries) (fp : List Key) (v : Val) :
    ∀ (ks : List Key) (nm : Key) (d : Option Entries) (cs : List (Key × Node)) (n2 : Node),
      walkIns dd fp v ks (Node.branch nm d cs) = some n2 →
      ∃ cs2, n2 = Node.branch nm d cs2 ∧ cs2 ≠ [] := by
  intro ks
  induction ks with
  | nil => intro nm d cs n2 h; simp [walkIns] at h
  | cons k t ih =>
      intro nm d cs n2 h
      cases t with
      | nil =>
          simp [walkIns] at h
          exact ⟨cs ++ [(k, Node.leaf k v fp)], h.symm, by simp⟩
      | cons k2 ks =>
          simp only [walkIns] at h
          by_cases hf : isFalsy (childWithKey cs k) = true
          · rw [if_pos hf] at h
            cases hw : walkIns dd fp v (k2 :: ks) (Node.branch k (some dd) []) with
            | none => rw [hw] at h; simp at h
            | some nb =>
                rw [hw] at h; simp at h
                exact ⟨cs ++ [(k, nb)], h.symm, by simp⟩
          · rw [if_neg hf] at h
            cases hc : childWithKey cs k with
            | none => rw [hc] at h; simp at h
            | some b =>
                rw [hc] at h
                dsimp only at h
                cases hw : walkIns dd fp v (k2 :: ks) b with
                | none => rw [hw] at h; simp at h
                | some b2 =>
                    rw [hw] at h; simp at h
                    refine ⟨replaceFirstKey cs k b2, h.symm, ?_⟩
                    cases cs with
                    | nil => simp [childWithKey] at hc
                    | cons p cs =>
                        obtain ⟨k3, n3⟩ := p
                        by_cases hk : k = k3 <;> simp [replaceFirstKey, hk]

theorem liftGo (dd : Entries) (k : Key) :
    ∀ (L : List (List Key × List Key × Val)) (n1 : Key) (d1 : Option Entries)
      (cs1 : List (Key × Node)) (bfin : Node),
      (∀ t ∈ L, t.1 ≠ ([] : List Key)) →
      cs1 ≠ [] →
      buildW dd L (Node.branch n1 d1 cs1) = some bfin →
      ∀ (nm : Key) (d0 : Option Entries) (cs : List (Key × Node)),
        hasChildKey cs k = false →
        buildW dd (L.map (fun t => (k :: t.1, t.2.1, t.2.2)))
            (Node.branch nm d0 (cs ++ [(k, Node.branch n1 d1 cs1)])) =
          some (Node.branch nm d0 (cs ++ [(k, bfin)])) := by
  intro L
  induction L with
  | nil =>
      intro n1 d1 cs1 bfin _ _ hb nm d0 cs _
      simp [buildW] at hb
      simp [buildW, hb]
  | cons t L ih =>
      intro n1 d1 cs1 bfin hne hcs1 hb nm d0 cs hk
      obtain ⟨ks, fp, v⟩ := t
      have hks : ks ≠ ([] : List Key) := hne (ks, fp, v) (by simp)
      cases ks with
      | nil => exact absurd rfl hks
      | cons k2 ks2 =>
          simp only [buildW] at hb
          cases hw : walkIns dd fp v (k2 :: ks2) (Node.branch n1 d1 cs1) with
          | none => rw [hw] at hb; simp at hb
          | some b2 =>
              rw [hw] at hb
              obtain ⟨cs2, rfl, hcs2⟩ := walkIns_shape dd fp v _ _ _ _ _ hw
              have hfound := childWithKey_append_self (b := Node.branch n1 d1 cs1) hk
              have hfalsy : isFalsy (some (Node.branch n1 d1 cs1)) = false := by
                cases cs1 with
                | nil => exact absurd rfl hcs1
                | cons q qs => simp [isFalsy]
              simp only [List.map_cons, buildW, walkIns, hfound, hfalsy, Bool.false_eq_true,
                if_false, hw, replaceFirstKey_append_self hk]
              exact ih n1 d1 cs2 bfin (fun t ht => hne t (by simp [ht])) hcs2 hb nm d0 cs hk

/-! ### The path list of a dictionary -/

theorem walkList_mem_ne_nil : ∀ (es : Entries) (cur : List Key)
    (t : List Key × List Key × Val), t ∈ walkList es cur → t.1 ≠ []
  | [], cur, t => by simp [walkList]
  | (k, DVal.scalar v) :: rest, cur, t => by
      intro ht
      simp only [walkList, List.mem_cons] at ht
      rcases ht with h | h
      · subst h; simp
      · exact walkList_mem_ne_nil rest cur t h
  | (k, DVal.dict d) :: rest, cur, t => by
      intro ht
      simp only [walkList, List.mem_append, List.mem_map] at ht
      rcases ht with ⟨s, _, rfl⟩ | h
      · simp
      · exact walkList_mem_ne_nil rest cur t h

theorem walkList_eq_nil : ∀ (es : Entries), hasScalarE es = false →
    ∀ (cur : List Key), walkList es cur = []
  | [], _, _ => by simp [walkList]
  | (k, DVal.scalar v) :: rest, h, cur => by simp [hasScalarE] at h
  | (k, DVal.dict d) :: rest, h, cur => by
      simp only [hasScalarE, Bool.or_eq_false_iff] at h
      simp [walkList, walkList_eq_nil d h.1, walkList_eq_nil rest h.2]

theorem walkList_ne_nil : ∀ (es : Entries), hasScalarE es = true →
    ∀ (cur : List Key), walkList es cur ≠ []
  | [], h, _ => by simp [hasScalarE] at h
  | (k, DVal.scalar v) :: rest, _, cur => by simp [walkList]
  | (k, DVal.dict d) :: rest, h, cur => by
      simp only [hasScalarE, Bool.or_eq_true] at h
      rcases h with h | h
      · have := walkList_ne_nil d h (cur ++ [k])
        simp [walkList]
        intro hmap
        exact fun _ => this hmap
      · have := walkList_ne_nil rest h cur
        simp [walkList]
        exact fun _ => this

theorem buildW_append (dd : Entries) (L1 L2 : List (List Key × List Key × Val)) (n : Node) :
    buildW dd (L1 ++ L2) n =
      match buildW dd L1 n with
      | some n1 => buildW dd L2 n1
      | none => none := by
  induction L1 generalizing n with
  | nil => simp [buildW]
  | cons t L1 ih =>
      obtain ⟨ks, fp, v⟩ := t
      simp only [List.cons_append, buildW]
      cases walkIns dd fp v ks n with
      | none => rfl
      | some n1 => exact ih n1

/-! ### The tree built by `load` is the mirror of the dictionary -/

theorem buildW_mirror (dd : Entries) : ∀ (es : Entries), wfE es = true →
    ∀ (cur : List Key) (nm : Key) (d0 : Option Entries) (cs : List (Key × Node)),
      (∀ k2, hasKey es k2 = true → hasChildKey cs k2 = false) →
      buildW dd (walkList es cur) (Node.branch nm d0 cs) =
        some (Node.branch nm d0 (cs ++ mirrorE dd es cur))
  | [], _, cur, nm, d0, cs, _ => by simp [walkList, buildW, mirrorE]
  | (k, DVal.scalar v) :: rest, hwf, cur, nm, d0, cs, hdisj => by
      simp only [wfE, Bool.and_eq_true, Bool.not_eq_true'] at hwf
      obtain ⟨⟨hnk, _⟩, hrest⟩ := hwf
      have hd2 : ∀ k2, hasKey rest k2 = true →
          hasChildKey (cs ++ [(k, Node.leaf k v (cur ++ [k]))]) k2 = false := by
        intro k2 hk2
        have h1 : hasChildKey cs k2 = false := hdisj k2 (by simp [hasKey, hk2])
        have h2 : ¬ k = k2 := by
          intro he; subst he; rw [hk2] at hnk; exact absurd hnk (by simp)
        rw [hasChildKey_append]
        simp [hasChildKey, h1, h2]
      simp only [walkList, buildW, walkIns]
      rw [buildW_mirror dd rest hrest cur nm d0
        (cs ++ [(k, Node.leaf k v (cur ++ [k]))]) hd2]
      simp [mirrorE, List.append_assoc]
  | (k, DVal.dict d) :: rest, hwf, cur, nm, d0, cs, hdisj => by
      simp only [wfE, wfV, Bool.and_eq_true, Bool.not_eq_true'] at hwf
      obtain ⟨⟨hnk, hwd⟩, hrest⟩ := hwf
      by_cases hsc : hasScalarE d = true
      · have hck : hasChildKey cs k = false := hdisj k (by simp [hasKey])
        have hinner := buildW_mirror dd d hwd (cur ++ [k]) k (some dd) []
          (by intro k2 _; simp [hasChildKey])
        simp only [List.nil_append] at hinner
        cases hL : walkList d (cur ++ [k]) with
        | nil => exact absurd hL (walkList_ne_nil d hsc (cur ++ [k]))
        | cons t0 L0 =>
            rw [hL] at hinner
            obtain ⟨ks0, fp0, v0⟩ := t0
            have hks0 : ks0 ≠ ([] : List Key) :=
              walkList_mem_ne_nil d (cur ++ [k]) (ks0, fp0, v0) (by rw [hL]; simp)
            simp only [buildW] at hinner
            cases hw0 : walkIns dd fp0 v0 ks0 (Node.branch k (some dd) []) with
            | none => rw [hw0] at hinner; simp at hinner
            | some b1 =>
                rw [hw0] at hinner
                obtain ⟨cs1, rfl, hcs1⟩ := walkIns_shape dd fp0 v0 _ _ _ _ _ hw0
                have hmem : ∀ t ∈ L0, t.1 ≠ ([] : List Key) := by
                  intro t ht
                  exact walkList_mem_ne_nil d (cur ++ [k]) t (by rw [hL]; simp [ht])
                have hlift := liftGo dd k L0 k (some dd) cs1
                  (Node.branch k (some dd) (mirrorE dd d (cur ++ [k])))
                  hmem hcs1 hinner nm d0 cs hck
                have hd2 : ∀ k2, hasKey rest k2 = true →
                    hasChildKey (cs ++
                      [(k, Node.branch k (some dd) (mirrorE dd d (cur ++ [k])))]) k2 = false := by
                  intro k2 hk2
                  have h1 : hasChildKey cs k2 = false := hdisj k2 (by simp [hasKey, hk2])
                  have h2 : ¬ k = k2 := by
                    intro he; subst he; rw [hk2] at hnk; exact absurd hnk (by simp)
                  rw [hasChildKey_append]
                  simp [hasChildKey, h1, h2]
                cases ks0 with
                | nil => exact absurd rfl hks0
                | cons k2 ks2 =>
                    simp only [walkList, hL, List.map_cons, List.cons_append, buildW, walkIns,
                      childWithKey_eq_none hck, isFalsy, if_true, hw0]
                    rw [buildW_append, hlift]
                    dsimp only
                    rw [buildW_mirror dd rest hrest cur nm d0
                      (cs ++ [(k, Node.branch k (some dd) (mirrorE dd d (cur ++ [k])))]) hd2]
                    simp [mirrorE, hsc, List.append_assoc]
      · have hd0 : hasScalarE d = false := by revert hsc; cases hasScalarE d <;> simp
        have hd2 : ∀ k2, hasKey rest k2 = true → hasChildKey cs k2 = false := by
          intro k2 hk2; exact hdisj k2 (by simp [hasKey, hk2])
        simp only [walkList, walkList_eq_nil d hd0, List.map_nil, List.nil_append]
        rw [buildW_mirror dd rest hrest cur nm d0 cs hd2]
        simp [mirrorE, hd0]

theorem getPaths_eq_proj : ∀ (es : Entries) (cur : List Key),
    getPaths es cur = (walkList es cur).map (fun t => (t.2.1, t.2.2))
  | [], cur => by simp [getPaths, walkList]
  | (k, DVal.scalar v) :: rest, cur => by
      simp [getPaths, walkList, getPaths_eq_proj rest cur]
  | (k, DVal.dict d) :: rest, cur => by
      simp [getPaths, walkList, getPaths_eq_proj d (cur ++ [k]), getPaths_eq_proj rest cur,
        Function.comp]

theorem walkList_fp : ∀ (es : Entries) (cur : List Key)
    (t : List Key × List Key × Val), t ∈ walkList es cur → t.2.1 = cur ++ t.1
  | [], cur, t => by simp [walkList]
  | (k, DVal.scalar v) :: rest, cur, t => by
      intro ht
      simp only [walkList, List.mem_cons] at ht
      rcases ht with h | h
      · subst h; simp
      · exact walkList_fp rest cur t h
  | (k, DVal.dict d) :: rest, cur, t => by
      intro ht
      simp only [walkList, List.mem_append, List.mem_map] at ht
      rcases ht with ⟨s, hs, rfl⟩ | h
      · have := walkList_fp d (cur ++ [k]) s hs
        simp [this]
      · exact walkList_fp rest cur t h

theorem getPaths_tag (es : Entries) :
    (getPaths es []).map (fun q => (q.1, q.1, q.2)) = walkList es [] := by
  rw [getPaths_eq_proj es []]
  rw [List.map_map]
  have : ∀ t ∈ walkList es [], ((fun q => (q.1, q.1, q.2)) ∘ fun t => (t.2.1, t.2.2)) t = id t := by
    intro t ht
    obtain ⟨a, b, c⟩ := t
    have hb := walkList_fp es [] (a, b, c) ht
    simp only [List.nil_append] at hb
    simp [Function.comp, hb]
  rw [List.map_congr_left this, List.map_id]

/-- What `load` computes on any state whose root is a branch: the tree is the
mirror of the (well-formed) source dictionary and the stored paths are
`getPaths`. -/
theorem load_mirror (m : ModelState) (nm : Key) (d0 : Option Entries)
    (cs0 : List (Key × Node)) (hroot : m.root = Node.branch nm d0 cs0)
    (hwf : wfE m.dataDict = true) :
    QTreeModel_Base.load m =
      some { m with
              root := Node.branch nm (some m.dataDict) (mirrorE m.dataDict m.dataDict [])
              paths := getPaths m.dataDict [] } := by
  rw [QTreeModel_Base.load, hroot]
  dsimp only
  rw [getPaths_tag m.dataDict]
  rw [buildW_mirror m.dataDict m.dataDict hwf [] nm (some m.dataDict) []
    (by intro k2 _; simp [hasChildKey])]
  simp

theorem flatten_mirror (dd : Entries) : ∀ (es : Entries) (cur : List Key),
    flattenChildren (mirrorE dd es cur) = getPaths es cur
  | [], cur => by simp [mirrorE, flattenChildren, getPaths]
  | (k, DVal.scalar v) :: rest, cur => by
      simp [mirrorE, flattenChildren, getPaths, flattenPairs, flatten_mirror dd rest cur]
  | (k, DVal.dict d) :: rest, cur => by
      by_cases hsc : hasScalarE d = true
      · simp [mirrorE, hsc, flattenChildren, getPaths, flattenPairs,
          flatten_mirror dd d (cur ++ [k]), flatten_mirror dd rest cur]
      · have hd0 : hasScalarE d = false := by revert hsc; cases hasScalarE d <;> simp
        have hnil : getPaths d (cur ++ [k]) = [] := by
          rw [getPaths_eq_proj, walkList_eq_nil d hd0]; simp
        simp [mirrorE, hd0, getPaths, hnil, flatten_mirror dd rest cur]

/-! ### Goodness of the built tree and position lemmas -/

theorem hasChildKey_mirror (dd : Entries) : ∀ (es : Entries) (cur : List Key) (k2 : Key),
    hasChildKey (mirrorE dd es cur) k2 = true → hasKey es k2 = true
  | [], cur, k2 => by simp [mirrorE, hasChildKey]
  | (k, DVal.scalar v) :: rest, cur, k2 => by
      intro h
      simp only [mirrorE, hasChildKey, Bool.or_eq_true] at h
      rcases h with h | h
      · simp [hasKey, h]
      · simp [hasKey, hasChildKey_mirror dd rest cur k2 h]
  | (k, DVal.dict d) :: rest, cur, k2 => by
      intro h
      by_cases hsc : hasScalarE d = true
      · rw [mirrorE, if_pos hsc] at h
        simp only [hasChildKey, Bool.or_eq_true] at h
        rcases h with h | h
        · simp [hasKey, h]
        · simp [hasKey, hasChildKey_mirror dd rest cur k2 h]
      · have hd0 : hasScalarE d = false := by revert hsc; cases hasScalarE d <;> simp
        rw [mirrorE, if_neg (by simp [hd0])] at h
        simp [hasKey, hasChildKey_mirror dd rest cur k2 h]

theorem good_mirror (dd : Entries) : ∀ (es : Entries), wfE es = true →
    ∀ (cur : List Key), goodChildren (mirrorE dd es cur) = true
  | [], _, cur => by simp [mirrorE, goodChildren]
  | (k, DVal.scalar v) :: rest, hwf, cur => by
      simp only [wfE, Bool.and_eq_true, Bool.not_eq_true'] at hwf
      obtain ⟨⟨hnk, _⟩, hrest⟩ := hwf
      have hm : hasChildKey (mirrorE dd rest cur) k = false := by
        cases hc : hasChildKey (mirrorE dd rest cur) k with
        | false => rfl
        | true => rw [hasChildKey_mirror dd rest cur k hc] at hnk; exact absurd hnk (by simp)
      simp [mirrorE, goodChildren, nodeKeyName, goodNode, hm, good_mirror dd rest hrest cur]
  | (k, DVal.dict d) :: rest, hwf, cur => by
      simp only [wfE, wfV, Bool.and_eq_true, Bool.not_eq_true'] at hwf
      obtain ⟨⟨hnk, hwd⟩, hrest⟩ := hwf
      have hm : hasChildKey (mirrorE dd rest cur) k = false := by
        cases hc : hasChildKey (mirrorE dd rest cur) k with
        | false => rfl
        | true => rw [hasChildKey_mirror dd rest cur k hc] at hnk; exact absurd hnk (by simp)
      by_cases hsc : hasScalarE d = true
      · rw [mirrorE, if_pos hsc]
        simp [goodChildren, nodeKeyName, goodNode, hm,
          good_mirror dd d hwd (cur ++ [k]), good_mirror dd rest hrest cur]
      · have hd0 : hasScalarE d = false := by revert hsc; cases hasScalarE d <;> simp
        rw [mirrorE, if_neg (by simp [hd0])]
        exact good_mirror dd rest hrest cur

theorem goodChildren_at {cs : List (Key × Node)} (hg : goodChildren cs = true) :
    ∀ (i : Nat) (k : Key) (c : Node), cs[i]? = some (k, c) →
      nodeKeyName c = k ∧ goodNode c = true := by
  induction cs with
  | nil => intro i k c h; simp at h
  | cons q cs ih =>
      obtain ⟨k0, c0⟩ := q
      simp only [goodChildren, Bool.and_eq_true, Bool.not_eq_true', beq_iff_eq] at hg
      obtain ⟨⟨⟨hk0, _⟩, hg0⟩, hgcs⟩ := hg
      intro i k c h
      cases i with
      | zero =>
          simp at h
          obtain ⟨rfl, rfl⟩ := h
          exact ⟨hk0, hg0⟩
      | succ j => exact ih hgcs j k c (by simpa using h)

theorem hasChildKey_of_getElem {cs : List (Key × Node)} :
    ∀ (j : Nat) (k : Key) (c : Node), cs[j]? = some (k, c) → hasChildKey cs k = true := by
  induction cs with
  | nil => intro j k c h; simp at h
  | cons q cs ih =>
      obtain ⟨k0, c0⟩ := q
      intro j k c h
      cases j with
      | zero => simp at h; simp [hasChildKey, h.1]
      | succ j2 => simp [hasChildKey, ih j2 k c (by simpa using h)]

theorem rowOfChild_at {cs : List (Key × Node)} (hg : goodChildren cs = true) :
    ∀ (i : Nat) (k : Key) (c : Node), cs[i]? = some (k, c) → rowOfChild cs c = (i : Int) := by
  induction cs with
  | nil => intro i k c h; simp at h
  | cons q cs ih =>
      obtain ⟨k0, c0⟩ := q
      have hg2 := hg
      simp only [goodChildren, Bool.and_eq_true, Bool.not_eq_true', beq_iff_eq] at hg2
      obtain ⟨⟨⟨hk0, hnc⟩, _⟩, hgcs⟩ := hg2
      intro i k c h
      cases i with
      | zero =>
          simp at h
          obtain ⟨rfl, rfl⟩ := h
          rw [rowOfChild, if_pos (nodeEq_refl c0)]
          simp
      | succ j =>
          have htl : cs[j]? = some (k, c) := by simpa using h
          have hrec := ih hgcs j k c htl
          have hne : nodeEq c0 c = false := by
            cases he : nodeEq c0 c with
            | false => rfl
            | true =>
                have hkc : nodeKeyName c = k := (goodChildren_at hgcs j k c htl).1
                have hk0k : k0 = k := by rw [← hk0, nodeEq_keyName he, hkc]
                have hck : hasChildKey cs k = true := hasChildKey_of_getElem j k c htl
                rw [← hk0k, hnc] at hck
                exact absurd hck (by simp)
          rw [rowOfChild, if_neg (by simp [hne]), if_neg (by rw [hrec]; omega), hrec]
          omega

theorem goodNode_nodeAt : ∀ (p : Pos) (n c : Node),
    goodNode n = true → nodeAt n p = some c → goodNode c = true := by
  intro p
  induction p with
  | nil =>
      intro n c hgood hat
      simp [nodeAt] at hat
      rw [← hat]; exact hgood
  | cons i p2 ih =>
      intro n c hgood hat
      cases n with
      | leaf lb v ks => simp [nodeAt] at hat
      | branch nm d cs =>
          simp only [nodeAt] at hat
          cases hel : cs[i]? with
          | none => rw [hel] at hat; simp at hat
          | some q =>
              obtain ⟨k0, c0⟩ := q
              rw [hel] at hat
              have hg0 := (goodChildren_at (by simpa [goodNode] using hgood) i k0 c0 hel).2
              exact ih c0 c hg0 hat

theorem nodeAt_append (p : Pos) : ∀ (q : Pos) (n : Node),
    nodeAt n (p ++ q) = (nodeAt n p).bind (fun x => nodeAt x q) := by
  induction p with
  | nil => intro q n; simp [nodeAt]
  | cons i p2 ih =>
      intro q n
      cases n with
      | leaf lb v ks => simp [nodeAt]
      | branch nm d cs =>
          simp only [List.cons_append, nodeAt]
          cases cs[i]? with
          | none => simp
          | some c => exact ih q c.2

theorem lookupE_hasKey {es : Entries} {k : Key} {v : DVal}
    (h : lookupE es k = some v) : hasKey es k = true := by
  induction es with
  | nil => simp [lookupE] at h
  | cons q es ih =>
      obtain ⟨k2, v2⟩ := q
      by_cases hk : k2 = k
      · simp [hasKey, hk]
      · rw [lookupE, if_neg hk] at h
        simp [hasKey, ih h]

theorem getNestedE_hasKey {es : Entries} {s0 : Key} {ss : List Key} {x : DVal}
    (h : getNestedE es (s0 :: ss) = some x) : hasKey es s0 = true := by
  cases ss with
  | nil => exact lookupE_hasKey h
  | cons s1 ss2 =>
      rw [getNestedE] at h
      cases hl : lookupE es s0 with
      | none => rw [hl] at h; simp at h
      | some w =>
          cases w with
          | scalar v2 => rw [hl] at h; simp at h
          | dict d => exact lookupE_hasKey hl

theorem getNestedE_cons_ne {k s0 : Key} (w : DVal) (rest : Entries) (ss : List Key)
    (hne : ¬ k = s0) :
    getNestedE ((k, w) :: rest) (s0 :: ss) = getNestedE rest (s0 :: ss) := by
  cases ss with
  | nil => simp [getNestedE, lookupE, hne]
  | cons s1 ss2 => simp [getNestedE, lookupE, hne]

theorem mirror_leaf (dd : Entries) : ∀ (es : Entries), wfE es = true →
    ∀ (cur : List Key) (nm : Key) (d0 : Option Entries) (i : Nat) (p : Pos)
      (lbl : Key) (v0 : Val) (ks : List Key),
      nodeAt (Node.branch nm d0 (mirrorE dd es cur)) (i :: p) =
        some (Node.leaf lbl v0 ks) →
      ∃ suf, suf ≠ ([] : List Key) ∧ ks = cur ++ suf ∧
        getNestedE es suf = some (DVal.scalar v0)
  | [], _, cur, nm, d0, i, p, lbl, v0, ks => by
      intro hat
      simp [mirrorE, nodeAt] at hat
  | (k, DVal.scalar v) :: rest, hwf, cur, nm, d0, i, p, lbl, v0, ks => by
      intro hat
      simp only [wfE, Bool.and_eq_true, Bool.not_eq_true'] at hwf
      obtain ⟨⟨hnk, _⟩, hrest⟩ := hwf
      cases i with
      | zero =>
          simp only [mirrorE, nodeAt, List.getElem?_cons_zero] at hat
          cases p with
          | nil =>
              simp only [nodeAt, Option.some.injEq, Node.leaf.injEq] at hat
              obtain ⟨rfl, rfl, rfl⟩ := hat
              exact ⟨[k], by simp, rfl, by simp [getNestedE, lookupE]⟩
          | cons i2 p2 => simp [nodeAt] at hat
      | succ j =>
          simp only [mirrorE, nodeAt, List.getElem?_cons_succ] at hat
          have hat2 : nodeAt (Node.branch nm d0 (mirrorE dd rest cur)) (j :: p) =
              some (Node.leaf lbl v0 ks) := by
            simp only [nodeAt]; exact hat
          obtain ⟨suf, hsne, hks, hget⟩ := mirror_leaf dd rest hrest cur nm d0 j p lbl v0 ks hat2
          refine ⟨suf, hsne, hks, ?_⟩
          cases suf with
          | nil => exact absurd rfl hsne
          | cons s0 ss =>
              have hs0 : hasKey rest s0 = true := getNestedE_hasKey hget
              have hne : ¬ k = s0 := by
                intro he; subst he; rw [hs0] at hnk; exact absurd hnk (by simp)
              rw [getNestedE_cons_ne _ rest ss hne]
              exact hget
  | (k, DVal.dict d) :: rest, hwf, cur, nm, d0, i, p, lbl, v0, ks => by
      intro hat
      simp only [wfE, wfV, Bool.and_eq_true, Bool.not_eq_true'] at hwf
      obtain ⟨⟨hnk, hwd⟩, hrest⟩ := hwf
      by_cases hsc : hasScalarE d = true
      · rw [mirrorE, if_pos hsc] at hat
        cases i with
        | zero =>
            simp only [nodeAt, List.getElem?_cons_zero] at hat
            cases p with
            | nil => simp [nodeAt] at hat
            | cons i2 p2 =>
                obtain ⟨suf2, hsne2, hks2, hget2⟩ :=
                  mirror_leaf dd d hwd (cur ++ [k]) k (some dd) i2 p2 lbl v0 ks hat
                refine ⟨k :: suf2, by simp, by simp [hks2], ?_⟩
                cases suf2 with
                | nil => exact absurd rfl hsne2
                | cons t0 ts =>
                    rw [getNestedE]
                    simp [lookupE, hget2]
        | succ j =>
            simp only [nodeAt, List.getElem?_cons_succ] at hat
            have hat2 : nodeAt (Node.branch nm d0 (mirrorE dd rest cur)) (j :: p) =
                some (Node.leaf lbl v0 ks) := by
              simp only [nodeAt]; exact hat
            obtain ⟨suf, hsne, hks, hget⟩ :=
              mirror_leaf dd rest hrest cur nm d0 j p lbl v0 ks hat2
            refine ⟨suf, hsne, hks, ?_⟩
            cases suf with
            | nil => exact absurd rfl hsne
            | cons s0 ss =>
                have hs0 : hasKey rest s0 = true := getNestedE_hasKey hget
                have hne : ¬ k = s0 := by
                  intro he; subst he; rw [hs0] at hnk; exact absurd hnk (by simp)
                rw [getNestedE_cons_ne _ rest ss hne]
                exact hget
      · have hd0 : hasScalarE d = false := by revert hsc; cases hasScalarE d <;> simp
        rw [mirrorE, if_neg (by simp [hd0])] at hat
        obtain ⟨suf, hsne, hks, hget⟩ :=
          mirror_leaf dd rest hrest cur nm d0 i p lbl v0 ks hat
        refine ⟨suf, hsne, hks, ?_⟩
        cases suf with
        | nil => exact absurd rfl hsne
        | cons s0 ss =>
            have hs0 : hasKey rest s0 = true := getNestedE_hasKey hget
            have hne : ¬ k = s0 := by
              intro he; subst he; rw [hs0] at hnk; exact absurd hnk (by simp)
            rw [getNestedE_cons_ne _ rest ss hne]
            exact hget

theorem lookupE_dictSet_self (es : Entries) (k : Key) (v : DVal) :
    lookupE (dictSet es k v) k = some v := by
  induction es with
  | nil => simp [dictSet, lookupE]
  | cons q es ih =>
      obtain ⟨k2, v2⟩ := q
      by_cases hk : k2 = k
      · subst hk; simp [dictSet, lookupE]
      · rw [dictSet, if_neg hk, lookupE, if_neg hk]
        exact ih

theorem assignPath_correct : ∀ (ks : List Key) (es : Entries) (v w : Val),
    getNestedE es ks = some (DVal.scalar w) →
    ∃ es2, assignPath es ks v = some es2 ∧
      getNestedE es2 ks = some (DVal.scalar v)
  | [], es, v, w => by intro h; simp [getNestedE] at h
  | [k], es, v, w => by
      intro _
      exact ⟨dictSet es k (DVal.scalar v), by rw [assignPath],
        by rw [getNestedE, lookupE_dictSet_self]⟩
  | k :: k2 :: ks, es, v, w => by
      intro h
      rw [getNestedE] at h
      cases hl : lookupE es k with
      | none => rw [hl] at h; simp at h
      | some x =>
          cases x with
          | scalar v2 => rw [hl] at h; simp at h
          | dict d =>
              rw [hl] at h
              dsimp only at h
              obtain ⟨d2, hass, hget2⟩ := assignPath_correct (k2 :: ks) d v w h
              refine ⟨dictSet es k (DVal.dict d2), ?_, ?_⟩
              · rw [assignPath, hl]
                dsimp only
                rw [hass]
              · rw [getNestedE, lookupE_dictSet_self]
                dsimp only
                exact hget2

/-! ### Concrete example states used by witnesses and counterexamples -/

/-- Example dictionary `{"a": 1, "x": {"y": 2}}`. -/
def Dex : Entries := [(("a"), DVal.scalar 1), (("x"), DVal.dict [(("y"), DVal.scalar 2)])]

/-- The adapter state after `load` on `Dex`. -/
def mex : ModelState :=
  { dataDict := Dex
    root := Node.branch ("") (some Dex) (mirrorE Dex Dex [])
    paths := getPaths Dex []
    rowCountCache := -1
    viewPresent := true }

theorem wfE_Dex : wfE Dex = true := by simp [Dex, wfE, wfV, hasKey]

theorem load_initState_mex : QTreeModel_Base.load (initState Dex) = some mex := by
  rw [load_mirror (initState Dex) ("") none [] rfl wfE_Dex]
  simp [initState, mex]

/-- Example dictionary `{"x": {"y": 2}}` (the spec's nested example). -/
def D7 : Entries := [(("x"), DVal.dict [(("y"), DVal.scalar 2)])]

/-- The adapter state after `load` on `D7`. -/
def m7 : ModelState :=
  { dataDict := D7
    root := Node.branch ("") (some D7) (mirrorE D7 D7 [])
    paths := getPaths D7 []
    rowCountCache := -1
    viewPresent := true }

theorem wfE_D7 : wfE D7 = true := by simp [D7, wfE, wfV, hasKey]

theorem load_initState_m7 : QTreeModel_Base.load (initState D7) = some m7 := by
  rw [load_mirror (initState D7) ("") none [] rfl wfE_D7]
  simp [initState, m7]

/-! ### Claim theorems -/

/-- Claim C1: for every (well-formed) nested dictionary `D`, after `load` with
`D` as the source dictionary, flattening the resulting tree back to
(path, value) pairs yields exactly the root-to-leaf (path, value) pairs
obtained by recursively walking `D` in insertion order (proved as list
equality, which subsumes the claimed set equality and the ordering). -/
theorem C1_load_flatten (D : Entries) (m : ModelState)
    (hwf : wfE D = true)
    (hload : QTreeModel_Base.load (initState D) = some m) :
    flattenPairs m.root = getPaths D [] := by
  rw [load_mirror (initState D) ("") none [] rfl hwf] at hload
  injection hload with hm
  rw [← hm]
  simp only [initState]
  simp [flattenPairs, flatten_mirror]

/-- Witness for C1 at `D = {"a": 1, "x": {"y": 2}}`. -/
theorem C1_load_flatten_witness : flattenPairs mex.root = getPaths Dex [] :=
  C1_load_flatten Dex mex wfE_Dex load_initState_mex

/-- Claim C3 counterexample: the claim's exception clause says a dictionary
with a single leaf directly inside it ("x" in `{"x": {"y": 2}}`) is
"represented by the leaf alone with no intermediate branch"; the code (in
agreement with the spec's own nested example) creates a `BranchNode` named
"x" holding the leaf. -/
theorem C3_single_leaf_dict_gets_branch :
    ∃ m, QTreeModel_Base.load (initState D7) = some m ∧
      m.root.children =
        [(("x"), Node.branch ("x") (some D7)
          [(("y"), Node.leaf ("y") 2 [("x"), ("y")])])] := by
  refine ⟨m7, load_initState_m7, ?_⟩
  simp [m7, D7, mirrorE, hasScalarE, Node.children]

/-- Claim C3 (amended): after `load` on a well-formed dictionary the tree
mirrors the dictionary exactly — every scalar entry appears as exactly one
leaf, every dictionary entry with at least one scalar somewhere beneath it
appears as exactly one branch, and dictionary entries with no scalar
beneath them produce no node (see `mirrorE`; the original exception clause
for single-leaf dictionaries does not hold on the code, and the
empty-dictionary proviso is needed for the branch half to be true). -/
theorem C3_tree_mirrors_dict (D : Entries) (m : ModelState)
    (hwf : wfE D = true)
    (hload : QTreeModel_Base.load (initState D) = some m) :
    m.root = Node.branch ("") (some D) (mirrorE D D []) := by
  rw [load_mirror (initState D) ("") none [] rfl hwf] at hload
  injection hload with hm
  rw [← hm]
  simp [initState]

/-- Witness for the amended C3 at `D = {"a": 1, "x": {"y": 2}}`. -/
theorem C3_tree_mirrors_dict_witness :
    mex.root = Node.branch ("") (some Dex) (mirrorE Dex Dex []) :=
  C3_tree_mirrors_dict Dex mex wfE_Dex load_initState_mex

/-- Claim C6: calling `load` twice in a row with the dictionary unchanged
reproduces the state of the first `load` exactly (same tree shape, names,
labels, values, paths), and the loaded tree has no duplicated child key in
any branch (`goodNode` additionally gives that every stored child key is
the child's own name/label), i.e. lookup by key reused branches instead of
duplicating them. -/
theorem C6_load_idempotent (D : Entries) (m : ModelState)
    (hwf : wfE D = true)
    (hload : QTreeModel_Base.load (initState D) = some m) :
    QTreeModel_Base.load m = some m ∧ goodNode m.root = true := by
  rw [load_mirror (initState D) ("") none [] rfl hwf] at hload
  injection hload with hm
  rw [← hm]
  constructor
  · rw [load_mirror _ ("") (some ((initState D).dataDict))
      (mirrorE (initState D).dataDict (initState D).dataDict []) rfl hwf]
  · simp only [initState]
    simp [goodNode, good_mirror D D hwf []]

/-- Witness for C6 at `D = {"a": 1, "x": {"y": 2}}`. -/
theorem C6_load_idempotent_witness :
    QTreeModel_Base.load mex = some mex ∧ goodNode mex.root = true :=
  C6_load_idempotent Dex mex wfE_Dex load_initState_mex

/-- Dictionary `{"a": 1}` before the external mutation of claim C2. -/
def D2a : Entries := [(("a"), DVal.scalar 1)]

/-- Dictionary `{"a": 1, "b": 2}`: `D2a` after a new top-level key was added
externally. -/
def D2b : Entries := [(("a"), DVal.scalar 1), (("b"), DVal.scalar 2)]

/-- The adapter state after `load` on `D2a`. -/
def m2a : ModelState :=
  { dataDict := D2a
    root := Node.branch ("") (some D2a) (mirrorE D2a D2a [])
    paths := getPaths D2a []
    rowCountCache := -1
    viewPresent := true }

theorem wfE_D2a : wfE D2a = true := by simp [D2a, wfE, wfV, hasKey]

theorem load_initState_m2a : QTreeModel_Base.load (initState D2a) = some m2a := by
  rw [load_mirror (initState D2a) ("") none [] rfl wfE_D2a]
  simp [initState, m2a]

/-- Claim C2 (code bug): load `{"a": 1}`, then add the key "b" to the shared
dictionary externally and run `auto_refresh` once.  Contrary to the claim
(and to `auto_refresh`'s own docstring, "If so, completely rebuild the model
and tree"), `auto_refresh` never calls `load`: the tree is left exactly as
it was and contains no node for "b", even though a `modelReset` signal is
emitted (the row probe `rowCount(createIndex(0, 0))` is always `0` because
the probe index carries no node, so the very first tick fires the signal
once and the cache sticks at `0` forever after). -/
theorem C2_auto_refresh_never_rebuilds :
    ∃ m, QTreeModel_Base.load (initState D2a) = some m ∧
      (QTreeModel_Base.auto_refresh { m with dataDict := D2b }).1.root = m.root ∧
      hasChildKey
        ((QTreeModel_Base.auto_refresh { m with dataDict := D2b }).1.root.children)
        ("b") = false ∧
      (QTreeModel_Base.auto_refresh { m with dataDict := D2b }).2 =
        [Sig.modelReset, Sig.autoresize] := by
  refine ⟨m2a, load_initState_m2a, ?_, ?_, ?_⟩
  · simp [QTreeModel_Base.auto_refresh, QTreeModel_Base.rowCount,
      QTreeModel_Base.nodeFromIndex, QTreeModel_Base.nodePos,
      QModelIndex.isValid, QModelIndex.ptrOf, m2a]
  · simp [QTreeModel_Base.auto_refresh, QTreeModel_Base.rowCount,
      QTreeModel_Base.nodeFromIndex, QTreeModel_Base.nodePos,
      QModelIndex.isValid, QModelIndex.ptrOf, m2a, D2a, mirrorE, hasScalarE,
      Node.children, hasChildKey]
  · simp [QTreeModel_Base.auto_refresh, QTreeModel_Base.rowCount,
      QTreeModel_Base.nodeFromIndex, QTreeModel_Base.nodePos,
      QModelIndex.isValid, QModelIndex.ptrOf, m2a]

/-- Claim C5: writing a leaf's currently cached value through its column-1
cell in the edit role returns failure (`False`, not an exception) and
leaves the whole adapter state — in particular the source dictionary —
completely unchanged. -/
theorem C5_noop_edit (m : ModelState) (p : Pos) (r : Int) (lbl : Key)
    (v0 : Val) (ks : List Key) (hr : 0 ≤ r)
    (hleaf : nodeAt m.root p = some (Node.leaf lbl v0 ks)) :
    QTreeModel_Base.setData m (QModelIndex.idx r 1 (some p)) v0 Role.edit =
      some (false, m) := by
  simp [QTreeModel_Base.setData, QTreeModel_Base.nodeFromIndex,
    QTreeModel_Base.nodePos, QModelIndex.isValid, QModelIndex.columnOf,
    QModelIndex.ptrOf, hr, hleaf]

/-- Witness for C5: a no-op write of value `1` to leaf "a" of
`{"a": 1, "x": {"y": 2}}`. -/
theorem C5_noop_edit_witness :
    QTreeModel_Base.setData mex (QModelIndex.idx 0 1 (some [0])) 1 Role.edit =
      some (false, mex) :=
  C5_noop_edit mex [0] 0 ("a") 1 [("a")] (by simp)
    (by simp [mex, Dex, mirrorE, hasScalarE, nodeAt])

/-- Claim C4: for every leaf of a tree freshly built by `load` from a
well-formed dictionary, and every value different from the leaf's current
value, `setData` on the leaf's column-1 index in the edit role returns
success and stores the value in the source dictionary at the leaf's path:
re-deriving the value at that path by successive mapping lookups from the
dictionary root yields the new value. -/
theorem C4_roundtrip_edit (D : Entries) (m : ModelState) (p : Pos) (r : Int)
    (lbl : Key) (v0 v : Val) (ks : List Key)
    (hwf : wfE D = true)
    (hload : QTreeModel_Base.load (initState D) = some m)
    (hleaf : nodeAt m.root p = some (Node.leaf lbl v0 ks))
    (hr : 0 ≤ r) (hne : v ≠ v0) :
    ∃ m2, QTreeModel_Base.setData m (QModelIndex.idx r 1 (some p)) v Role.edit =
        some (true, m2) ∧
      getNestedE m2.dataDict ks = some (DVal.scalar v) := by
  rw [load_mirror (initState D) ("") none [] rfl hwf] at hload
  injection hload with hm
  subst hm
  simp only [initState] at hleaf ⊢
  cases p with
  | nil => simp [nodeAt] at hleaf
  | cons i p2 =>
      obtain ⟨suf, hsne, hks, hget⟩ :=
        mirror_leaf D D hwf [] ("") (some D) i p2 lbl v0 ks hleaf
      simp only [List.nil_append] at hks
      subst hks
      have hv0 : ¬ (v0 = v) := fun h => hne h.symm
      obtain ⟨D2, hass, hget2⟩ := assignPath_correct ks D v v0 hget
      have hksne : ks.isEmpty = false := by
        cases ks with
        | nil => exact absurd rfl hsne
        | cons s0 ss => simp
      refine ⟨{ dataDict := D2, root := Node.branch ("") (some D) (mirrorE D D []),
                paths := getPaths D [], rowCountCache := -1, viewPresent := true },
        ?_, ?_⟩
      · simp [QTreeModel_Base.setData, QTreeModel_Base.nodeFromIndex,
          QTreeModel_Base.nodePos, QModelIndex.isValid, QModelIndex.columnOf,
          QModelIndex.ptrOf, hr, hleaf, hv0, hksne, hass]
      · simpa using hget2

/-- Witness for C4: writing `5` to leaf "y" of `{"a": 1, "x": {"y": 2}}`. -/
theorem C4_roundtrip_edit_witness :
    ∃ m2, QTreeModel_Base.setData mex (QModelIndex.idx 0 1 (some [1, 0])) 5 Role.edit =
        some (true, m2) ∧
      getNestedE m2.dataDict [("x"), ("y")] = some (DVal.scalar 5) :=
  C4_roundtrip_edit Dex mex [1, 0] 0 ("y") 2 5 [("x"), ("y")] wfE_Dex
    load_initState_mex (by simp [mex, Dex, mirrorE, hasScalarE, nodeAt])
    (by simp) (by decide)

/-- Claim C9: a successful `setData` updates the source dictionary but not
the `LeafNode`'s stored `value` attribute (which was captured at the last
`load`), so immediately writing the same new value a second time is not
reported as a no-change: it returns success again and re-assigns the
dictionary entry.  (The `LeafNode` class is modelled from the spec, which
lists `value` as a stored attribute; see the module comment.) -/
theorem C9_cached_value_not_updated (D : Entries) (m : ModelState) (p : Pos)
    (r : Int) (lbl : Key) (v0 v : Val) (ks : List Key)
    (hwf : wfE D = true)
    (hload : QTreeModel_Base.load (initState D) = some m)
    (hleaf : nodeAt m.root p = some (Node.leaf lbl v0 ks))
    (hr : 0 ≤ r) (hne : v ≠ v0) :
    ∃ m1 m2,
      QTreeModel_Base.setData m (QModelIndex.idx r 1 (some p)) v Role.edit =
        some (true, m1) ∧
      nodeAt m1.root p = some (Node.leaf lbl v0 ks) ∧
      QTreeModel_Base.setData m1 (QModelIndex.idx r 1 (some p)) v Role.edit =
        some (true, m2) := by
  rw [load_mirror (initState D) ("") none [] rfl hwf] at hload
  injection hload with hm
  subst hm
  simp only [initState] at hleaf ⊢
  cases p with
  | nil => simp [nodeAt] at hleaf
  | cons i p2 =>
      obtain ⟨suf, hsne, hks, hget⟩ :=
        mirror_leaf D D hwf [] ("") (some D) i p2 lbl v0 ks hleaf
      simp only [List.nil_append] at hks
      subst hks
      have hv0 : ¬ (v0 = v) := fun h => hne h.symm
      obtain ⟨D2, hass, hget2⟩ := assignPath_correct ks D v v0 hget
      obtain ⟨D3, hass2, _⟩ := assignPath_correct ks D2 v v hget2
      have hksne : ks.isEmpty = false := by
        cases ks with
        | nil => exact absurd rfl hsne
        | cons s0 ss => simp
      refine ⟨{ dataDict := D2, root := Node.branch ("") (some D) (mirrorE D D []),
                paths := getPaths D [], rowCountCache := -1, viewPresent := true },
              { dataDict := D3, root := Node.branch ("") (some D) (mirrorE D D []),
                paths := getPaths D [], rowCountCache := -1, viewPresent := true },
        ?_, ?_, ?_⟩
      · simp [QTreeModel_Base.setData, QTreeModel_Base.nodeFromIndex,
          QTreeModel_Base.nodePos, QModelIndex.isValid, QModelIndex.columnOf,
          QModelIndex.ptrOf, hr, hleaf, hv0, hksne, hass]
      · simpa using hleaf
      · simp [QTreeModel_Base.setData, QTreeModel_Base.nodeFromIndex,
          QTreeModel_Base.nodePos, QModelIndex.isValid, QModelIndex.columnOf,
          QModelIndex.ptrOf, hr, hleaf, hv0, hksne, hass2]

/-- Witness for C9: writing `5` twice to leaf "y" of
`{"a": 1, "x": {"y": 2}}`; both writes report success. -/
theorem C9_cached_value_not_updated_witness :
    ∃ m1 m2,
      QTreeModel_Base.setData mex (QModelIndex.idx 0 1 (some [1, 0])) 5 Role.edit =
        some (true, m1) ∧
      nodeAt m1.root [1, 0] = some (Node.leaf ("y") 2 [("x"), ("y")]) ∧
      QTreeModel_Base.setData m1 (QModelIndex.idx 0 1 (some [1, 0])) 5 Role.edit =
        some (true, m2) :=
  C9_cached_value_not_updated Dex mex [1, 0] 0 ("y") 2 5 [("x"), ("y")] wfE_Dex
    load_initState_mex (by simp [mex, Dex, mirrorE, hasScalarE, nodeAt])
    (by simp) (by decide)

/-- Claim C7 counterexample: in `{"x": {"y": 2}}` the leaf "y" (position
`[0, 0]`) is a leaf, yet `parent` returns a perfectly valid index (row 0,
pointing at the branch "x") — not "no parent" as the claim's "in particular
for leaves" asserts.  Only depth-1 leaves (children of the root) get the
invalid index. -/
theorem C7_nested_leaf_has_valid_parent :
    ∃ m, QTreeModel_Base.load (initState D7) = some m ∧
      nodeAt m.root [0, 0] = some (Node.leaf ("y") 2 [("x"), ("y")]) ∧
      QTreeModel_Base.parent m (QModelIndex.idx 0 0 (some [0, 0])) =
        some (QModelIndex.idx 0 0 (some [0])) ∧
      (QModelIndex.idx 0 0 (some ([0] : Pos))).isValid = true := by
  refine ⟨m7, load_initState_m7, ?_, ?_, by simp [QModelIndex.isValid]⟩
  · simp [m7, D7, mirrorE, hasScalarE, nodeAt]
  · simp [QTreeModel_Base.parent, QTreeModel_Base.nodePos, QModelIndex.isValid,
      QModelIndex.ptrOf, m7, D7, mirrorE, hasScalarE, nodeAt, Node.children,
      rowOfChild, nodeEq, datEq, childrenEq, entriesEq, dvalEq]

/-- Claim C7 (amended): on a consistent tree (as built by `load`), `parent`
returns the invalid index when the index carries no node, when its position
does not resolve, for the root, and for depth-1 nodes (no grandparent) —
and otherwise returns an index for the node's parent positioned at the
parent's row among the grandparent's children.  (The original claim's "in
particular for leaves" is wrong for nested leaves, whose parent index is
valid; see the counterexample.) -/
theorem C7_parent_navigation (m : ModelState) (child : QModelIndex)
    (hgood : goodNode m.root = true) :
    (QTreeModel_Base.nodePos child = none →
        QTreeModel_Base.parent m child = some QModelIndex.invalid) ∧
    (∀ p, QTreeModel_Base.nodePos child = some p → nodeAt m.root p = none →
        QTreeModel_Base.parent m child = some QModelIndex.invalid) ∧
    (QTreeModel_Base.nodePos child = some [] →
        QTreeModel_Base.parent m child = some QModelIndex.invalid) ∧
    (∀ i, QTreeModel_Base.nodePos child = some [i] →
        QTreeModel_Base.parent m child = some QModelIndex.invalid) ∧
    (∀ p i j, QTreeModel_Base.nodePos child = some (p ++ [i, j]) →
        (∃ c, nodeAt m.root (p ++ [i, j]) = some c) →
        QTreeModel_Base.parent m child =
          some (QModelIndex.idx (i : Int) 0 (some (p ++ [i])))) := by
  refine ⟨?_, ?_, ?_, ?_, ?_⟩
  · intro h
    simp [QTreeModel_Base.parent, h]
  · intro p hp hnone
    simp [QTreeModel_Base.parent, hp, hnone]
  · intro hp
    simp [QTreeModel_Base.parent, hp, nodeAt]
  · intro i hp
    cases hnode : nodeAt m.root [i] with
    | none => simp [QTreeModel_Base.parent, hp, hnode]
    | some c => simp [QTreeModel_Base.parent, hp, hnode]
  · intro p i j hp hc
    obtain ⟨c, hc0⟩ := hc
    have hsplit : p ++ [i, j] = (p ++ [i]) ++ [j] := by simp
    have hc1 := hc0
    rw [hsplit, nodeAt_append] at hc1
    cases hpn : nodeAt m.root (p ++ [i]) with
    | none => rw [hpn] at hc1; simp at hc1
    | some pn =>
        rw [hpn] at hc1
        have hc2 := hpn
        rw [nodeAt_append] at hc2
        cases hg : nodeAt m.root p with
        | none => rw [hg] at hc2; simp at hc2
        | some g =>
            rw [hg] at hc2
            simp only [Option.some_bind] at hc2
            cases g with
            | leaf lb v ks => simp [nodeAt] at hc2
            | branch gnm gd gcs =>
                simp only [nodeAt] at hc2
                cases hel : gcs[i]? with
                | none => rw [hel] at hc2; simp at hc2
                | some q =>
                    obtain ⟨ki, ci⟩ := q
                    rw [hel] at hc2
                    simp only [nodeAt, Option.some.injEq] at hc2
                    subst hc2
                    have hgg : goodNode (Node.branch gnm gd gcs) = true :=
                      goodNode_nodeAt p m.root (Node.branch gnm gd gcs) hgood hg
                    have hgcs : goodChildren gcs = true := by
                      simpa [goodNode] using hgg
                    have hrow : rowOfChild gcs ci = (i : Int) :=
                      rowOfChild_at hgcs i ki ci hel
                    have hrowne : ¬ (rowOfChild gcs ci = -1) := by rw [hrow]; omega
                    have hd1 : (p ++ [i, j]).dropLast = p ++ [i] := by
                      rw [hsplit, List.dropLast_concat]
                    have hd2 : (p ++ [i]).dropLast = p := List.dropLast_concat
                    have hne1 : (p ++ [i, j]).isEmpty = false := by simp
                    have hne2 : (p ++ [i]).isEmpty = false := by simp
                    simp only [QTreeModel_Base.parent, hp, hc0, hne1, hd1, hne2, hd2,
                      hpn, hg, Bool.false_eq_true, if_false, Node.children, hrow,
                      hrowne, if_neg hrowne]
                    rw [if_neg (by omega : ¬ ((i : Int) = -1))]

theorem goodNode_m7 : goodNode m7.root = true := by
  simp [m7, D7, mirrorE, hasScalarE, goodNode, goodChildren, nodeKeyName, hasChildKey]

/-- Witness for the amended C7: the nested leaf "y" of `{"x": {"y": 2}}` gets
its parent index (branch "x" at row 0). -/
theorem C7_parent_navigation_witness :
    QTreeModel_Base.parent m7 (QModelIndex.idx 0 0 (some [0, 0])) =
      some (QModelIndex.idx 0 0 (some [0])) :=
  (C7_parent_navigation m7 (QModelIndex.idx 0 0 (some [0, 0])) goodNode_m7).2.2.2.2
    [] 0 0
    (by simp [QTreeModel_Base.nodePos, QModelIndex.isValid, QModelIndex.ptrOf])
    ⟨Node.leaf ("y") 2 [("x"), ("y")],
      by simp [m7, D7, mirrorE, hasScalarE, nodeAt]⟩

/-- Claim C8 counterexample: with the tree loaded from `{"a": 1, "x": ...}`
(so the root is non-empty and `assert self.root` passes), calling `index`
with a valid parent index that carries no node — exactly what
`index(row, col, parent)` itself hands out for an out-of-range row, or what
`createIndex(0, 0)` produces — fails the `assert branch is not None`
assertion (modelled as `none`) instead of returning an empty/null result. -/
theorem C8_index_hits_assert :
    ∃ m, QTreeModel_Base.load (initState Dex) = some m ∧
      (QModelIndex.idx 0 0 (none : Option Pos)).isValid = true ∧
      QTreeModel_Base.index m 0 0 (QModelIndex.idx 0 0 none) = none := by
  refine ⟨mex, load_initState_mex, by simp [QModelIndex.isValid], ?_⟩
  simp [QTreeModel_Base.index, QTreeModel_Base.nodePos, QModelIndex.isValid,
    QModelIndex.ptrOf, mex, Dex, mirrorE, hasScalarE, Node.children]

/-- Claim C8 (amended): for every invalid index and every valid index that
carries no node (out of range / detached), the query methods `rowCount`,
`data`, `setData`, `parent` and `flags` return an empty/zero/failure/default
result without raising — `rowCount` gives `0` for a detached index and, per
the view contract, the root's child count for the invalid index; `data`
gives the empty variant (for the invalid index under any role, and for a
detached index under the display/edit roles); `setData` reports failure and
leaves the state untouched; `parent` gives the invalid index; `flags` gives
the plain selectable-and-enabled flags (33).  `index`, however, does hit
failed assertions on such inputs: with a detached parent
(`assert branch is not None`), and — for any parent at all — when the root
has no children (`assert self.root` with `BranchNode.__len__`). -/
theorem C8_invalid_index_queries (m : ModelState) (i : QModelIndex) (v : Val)
    (role : Role) (nm : Key) (d0 : Option Entries) (cs : List (Key × Node))
    (hroot : m.root = Node.branch nm d0 cs)
    (hi : i.isValid = false ∨ i.ptrOf = none) :
    QTreeModel_Base.parent m i = some QModelIndex.invalid ∧
    (i.isValid = true → QTreeModel_Base.rowCount m i = 0) ∧
    (i.isValid = false → QTreeModel_Base.rowCount m i = (cs.length : Int)) ∧
    (i.isValid = false → QTreeModel_Base.data m i role = QVar.empty) ∧
    (i.isValid = true → (role = Role.display ∨ role = Role.edit) →
        QTreeModel_Base.data m i role = QVar.empty) ∧
    QTreeModel_Base.setData m i v role = some (false, m) ∧
    QTreeModel_Base.flags m i = 33 ∧
    (i.isValid = true → cs.isEmpty = false →
        ∀ r c, QTreeModel_Base.index m r c i = none) ∧
    (cs.isEmpty = true →
        ∀ r c pr, QTreeModel_Base.index m r c pr = none) := by
  have hchild : m.root.children = cs := by rw [hroot]; rfl
  by_cases hv : i.isValid = true
  · have hptr : i.ptrOf = none := by
      rcases hi with h | h
      · rw [hv] at h; exact absurd h (by simp)
      · exact h
    have hnode : QTreeModel_Base.nodeFromIndex m i = none := by
      simp [QTreeModel_Base.nodeFromIndex, QTreeModel_Base.nodePos, hv, hptr]
    refine ⟨?_, ?_, ?_, ?_, ?_, ?_, ?_, ?_, ?_⟩
    · simp [QTreeModel_Base.parent, QTreeModel_Base.nodePos, hv, hptr]
    · intro _
      simp [QTreeModel_Base.rowCount, hnode]
    · intro hfalse; rw [hfalse] at hv; exact absurd hv (by simp)
    · intro hfalse; rw [hfalse] at hv; exact absurd hv (by simp)
    · intro _ hrole
      rcases hrole with h | h <;>
        simp [QTreeModel_Base.data, hv, hnode, h]
    · by_cases hrole : role = Role.edit
      · by_cases hcol : i.columnOf = 1
        · simp [QTreeModel_Base.setData, hv, hrole, hcol, hnode]
        · simp [QTreeModel_Base.setData, hv, hrole, hcol]
      · simp [QTreeModel_Base.setData, hv, hrole]
    · by_cases hcol : i.columnOf = 1
      · simp [QTreeModel_Base.flags, hcol, hnode]
      · simp [QTreeModel_Base.flags, hcol]
    · intro _ hcs r c
      simp [QTreeModel_Base.index, hchild, hcs, QTreeModel_Base.nodePos, hv, hptr]
    · intro hcs r c pr
      simp [QTreeModel_Base.index, hchild, hcs]
  · have hinv : i.isValid = false := by
      cases hb : i.isValid with
      | false => rfl
      | true => exact absurd hb hv
    have hpos : QTreeModel_Base.nodePos i = some [] := by
      simp [QTreeModel_Base.nodePos, hinv]
    have hnode : QTreeModel_Base.nodeFromIndex m i = some (Node.branch nm d0 cs) := by
      simp [QTreeModel_Base.nodeFromIndex, hpos, nodeAt, hroot]
    refine ⟨?_, ?_, ?_, ?_, ?_, ?_, ?_, ?_, ?_⟩
    · simp [QTreeModel_Base.parent, hpos, hroot, nodeAt]
    · intro htrue; rw [htrue] at hinv; exact absurd hinv (by simp)
    · intro _
      simp [QTreeModel_Base.rowCount, hnode]
    · intro _
      simp [QTreeModel_Base.data, hinv]
    · intro htrue; rw [htrue] at hinv; exact absurd hinv (by simp)
    · simp [QTreeModel_Base.setData, hinv]
    · by_cases hcol : i.columnOf = 1
      · simp [QTreeModel_Base.flags, hcol, hnode]
      · simp [QTreeModel_Base.flags, hcol]
    · intro htrue; rw [htrue] at hinv; exact absurd hinv (by simp)
    · intro hcs r c pr
      simp [QTreeModel_Base.index, hchild, hcs]

/-- Witness for the amended C8: the invalid index against the loaded
`{"a": 1, "x": {"y": 2}}` tree; project out the `parent` conjunct. -/
theorem C8_invalid_index_queries_witness :
    QTreeModel_Base.parent mex QModelIndex.invalid = some QModelIndex.invalid :=
  (C8_invalid_index_queries mex QModelIndex.invalid 0 Role.display ("")
    (some Dex) (mirrorE Dex Dex []) (by rfl) (Or.inl (by rfl))).1

/-- The model operations of the adapter, reified for the frame claim. -/
inductive Op where
  | rowCountOp (i : QModelIndex)
  | columnCountOp (i : QModelIndex)
  | dataOp (i : QModelIndex) (role : Role)
  | headerDataOp (s : Int) (o : Orient) (role : Role)
  | flagsOp (i : QModelIndex)
  | parentOp (i : QModelIndex)
  | indexOp (r c : Int) (i : QModelIndex)
  | nodeFromIndexOp (i : QModelIndex)
  | setDataOp (i : QModelIndex) (v : Val) (role : Role)
  | loadOp

/-- Whether an operation is one of the read-only queries. -/
def isQueryOp : Op → Bool
  | Op.setDataOp _ _ _ => false
  | Op.loadOp => false
  | _ => true

/-- Whether an operation is `setData`. -/
def isSetDataOp : Op → Bool
  | Op.setDataOp _ _ _ => true
  | _ => false

/-- Run an operation and keep the resulting adapter state (discarding the
returned value; `none` models an exception, which also leaves the state as
it was).  The query methods contain no assignment to any `self` field, so
running them returns the state unchanged by construction; the theorem
`C10_only_setData_and_load_mutate` records what `setData` and `load` may
touch. -/
def applyOp (m : ModelState) : Op → Option ModelState
  | Op.rowCountOp i => (fun _ => some m) (QTreeModel_Base.rowCount m i)
  | Op.columnCountOp i => (fun _ => some m) (QTreeModel_Base.columnCount m i)
  | Op.dataOp i role => (fun _ => some m) (QTreeModel_Base.data m i role)
  | Op.headerDataOp s o role => (fun _ => some m) (QTreeModel_Base.headerData s o role)
  | Op.flagsOp i => (fun _ => some m) (QTreeModel_Base.flags m i)
  | Op.parentOp i => (fun _ => some m) (QTreeModel_Base.parent m i)
  | Op.indexOp r c i => (fun _ => some m) (QTreeModel_Base.index m r c i)
  | Op.nodeFromIndexOp i => (fun _ => some m) (QTreeModel_Base.nodeFromIndex m i)
  | Op.setDataOp i v role => (QTreeModel_Base.setData m i v role).map Prod.snd
  | Op.loadOp => QTreeModel_Base.load m

theorem setData_frame (m : ModelState) (i : QModelIndex) (v : Val) (role : Role)
    (b : Bool) (m2 : ModelState)
    (h : QTreeModel_Base.setData m i v role = some (b, m2)) :
    m2.root = m.root ∧ m2.paths = m.paths ∧
      m2.rowCountCache = m.rowCountCache ∧ m2.viewPresent = m.viewPresent := by
  unfold QTreeModel_Base.setData at h
  repeat' split at h
  all_goals simp_all
  all_goals (rw [← h.2]; simp)

theorem load_frame (m m2 : ModelState)
    (h : QTreeModel_Base.load m = some m2) :
    m2.dataDict = m.dataDict ∧ m2.rowCountCache = m.rowCountCache ∧
      m2.viewPresent = m.viewPresent := by
  unfold QTreeModel_Base.load at h
  split at h
  · simp at h
  · dsimp only at h
    split at h
    · injection h with h2
      rw [← h2]
      simp
    · simp at h

/-- Claim C10: every query operation (`rowCount`, `columnCount`, `data`,
`headerData`, `flags`, `parent`, `index`, `nodeFromIndex`) leaves the whole
adapter state — in particular the tree and the shared source dictionary —
unchanged; of all model operations only `setData` may change the source
dictionary (never the tree or the cached paths), and only `load` may change
the tree and the cached paths (never the source dictionary). -/
theorem C10_only_setData_and_load_mutate (m : ModelState) (op : Op)
    (m2 : ModelState) (happ : applyOp m op = some m2) :
    (isQueryOp op = true → m2 = m) ∧
    (op ≠ Op.loadOp → m2.root = m.root ∧ m2.paths = m.paths) ∧
    (isSetDataOp op = false → m2.dataDict = m.dataDict) := by
  cases op with
  | setDataOp i v role =>
      simp only [applyOp, Option.map_eq_some'] at happ
      obtain ⟨⟨b, m3⟩, hset, hm3⟩ := happ
      obtain ⟨h1, h2, _, _⟩ := setData_frame m i v role b m3 hset
      refine ⟨by intro h; simp [isQueryOp] at h, ?_, ?_⟩
      · intro _
        rw [← hm3]
        exact ⟨h1, h2⟩
      · intro h; simp [isSetDataOp] at h
  | loadOp =>
      simp only [applyOp] at happ
      obtain ⟨h1, _, _⟩ := load_frame m m2 happ
      refine ⟨by intro h; simp [isQueryOp] at h, ?_, ?_⟩
      · intro h; exact absurd rfl h
      · intro _; exact h1
  | rowCountOp i =>
      simp only [applyOp, Option.some.injEq] at happ
      subst happ; exact ⟨fun _ => rfl, fun _ => ⟨rfl, rfl⟩, fun _ => rfl⟩
  | columnCountOp i =>
      simp only [applyOp, Option.some.injEq] at happ
      subst happ; exact ⟨fun _ => rfl, fun _ => ⟨rfl, rfl⟩, fun _ => rfl⟩
  | dataOp i role =>
      simp only [applyOp, Option.some.injEq] at happ
      subst happ; exact ⟨fun _ => rfl, fun _ => ⟨rfl, rfl⟩, fun _ => rfl⟩
  | headerDataOp s o role =>
      simp only [applyOp, Option.some.injEq] at happ
      subst happ; exact ⟨fun _ => rfl, fun _ => ⟨rfl, rfl⟩, fun _ => rfl⟩
  | flagsOp i =>
      simp only [applyOp, Option.some.injEq] at happ
      subst happ; exact ⟨fun _ => rfl, fun _ => ⟨rfl, rfl⟩, fun _ => rfl⟩
  | parentOp i =>
      simp only [applyOp, Option.some.injEq] at happ
      subst happ; exact ⟨fun _ => rfl, fun _ => ⟨rfl, rfl⟩, fun _ => rfl⟩
  | indexOp r c i =>
      simp only [applyOp, Option.some.injEq] at happ
      subst happ; exact ⟨fun _ => rfl, fun _ => ⟨rfl, rfl⟩, fun _ => rfl⟩
  | nodeFromIndexOp i =>
      simp only [applyOp, Option.some.injEq] at happ
      subst happ; exact ⟨fun _ => rfl, fun _ => ⟨rfl, rfl⟩, fun _ => rfl⟩

/-- The state `mex` after writing `5` into leaf "y" through `setData`. -/
def mexEdited : ModelState :=
  { dataDict := [(("a"), DVal.scalar 1), (("x"), DVal.dict [(("y"), DVal.scalar 5)])]
    root := Node.branch ("") (some Dex) (mirrorE Dex Dex [])
    paths := getPaths Dex []
    rowCountCache := -1
    viewPresent := true }

/-- Witness for C10: a concrete `setData` run changes neither the tree nor
the cached paths. -/
theorem C10_only_setData_and_load_mutate_witness :
    mexEdited.root = mex.root ∧ mexEdited.paths = mex.paths :=
  (C10_only_setData_and_load_mutate mex
    (Op.setDataOp (QModelIndex.idx 0 1 (some [1, 0])) 5 Role.edit) mexEdited
    (by simp [applyOp, QTreeModel_Base.setData, QTreeModel_Base.nodeFromIndex,
      QTreeModel_Base.nodePos, QModelIndex.isValid, QModelIndex.columnOf,
      QModelIndex.ptrOf, mex, mexEdited, Dex, mirrorE, hasScalarE, nodeAt,
      assignPath, dictSet, lookupE])).2.1 (by simp)
